import Mathlib

/-!
Verification of the hosts-file manager (`hosts.go`) against its design
specification.  The Go program models a hosts file as a `[]interface{}`
whose elements are either a raw `string` (comments, blank lines, malformed
rows) or a `Host` record (`IP` plus `Hostnames`).  We embed the program
shallowly: Go strings become `List Char`, the dynamically-typed entry union
becomes the inductive `Entry` (with a `slice` constructor for the
`[]interface{}` value that `cmdRemoveIP` accidentally appends as a single
element), and each command's loop becomes a structurally recursive
function mirroring the Go control flow.
-/

namespace HostsTool

/-- Go strings, embedded as lists of characters. -/
abbrev Str := List Char

/-- Go's `unicode.IsSpace`: the Unicode White_Space property. -/
def goIsSpace (c : Char) : Bool :=
  c = ' ' || c = '\t' || c = '\n' || c = '\x0b' || c = '\x0c' || c = '\r' ||
  c = '\x85' || c = '\xa0' || c.val = 0x1680 ||
  (0x2000 ≤ c.val && c.val ≤ 0x200a) || c.val = 0x2028 || c.val = 0x2029 ||
  c.val = 0x202f || c.val = 0x205f || c.val = 0x3000

/-- Go's `strings.TrimSpace`: drop leading and trailing white space. -/
def trimSpace (s : Str) : Str :=
  ((s.dropWhile goIsSpace).reverse.dropWhile goIsSpace).reverse

/-- Go's `strings.Split(s, "\n")`: split on every newline, keeping empty parts. -/
def splitOnNl : Str → List Str
  | [] => [[]]
  | c :: rest =>
    if c = '\n' then [] :: splitOnNl rest
    else
      match splitOnNl rest with
      | r :: rs => (c :: r) :: rs
      | [] => [[c]]

/-- Accumulator loop for `strings.Fields`: `cur` holds the current word reversed. -/
def fieldsGo : Str → Str → List Str
  | [], cur => if cur.isEmpty then [] else [cur.reverse]
  | c :: rest, cur =>
    if goIsSpace c then
      if cur.isEmpty then fieldsGo rest [] else cur.reverse :: fieldsGo rest []
    else fieldsGo rest (c :: cur)

/-- Go's `strings.Fields`: split around runs of white space, dropping empties. -/
def fields (s : Str) : List Str := fieldsGo s []

/-- Go's `strings.HasPrefix(row, "#")`. -/
def startsWithHash : Str → Bool
  | c :: _ => c = '#'
  | [] => false

/-- Go's `strings.Join(hostnames, " ")`. -/
def joinSpace : List Str → Str
  | [] => []
  | [x] => x
  | x :: y :: rest => x ++ ' ' :: joinSpace (y :: rest)

/-- The `Host` struct from `hosts.go`: one row of the hosts file. -/
structure Host where
  IP : Str
  Hostnames : List Str
deriving DecidableEq

/-- One element of the Go `[]interface{}` holding the parsed file: a raw
`string`, a `Host`, or (reachable only through the `cmdRemoveIP` append that
misses the `...` spread) a nested `[]interface{}` value. -/
inductive Entry where
  | str (s : Str)
  | host (h : Host)
  | slice (l : List Entry)

/-- The row-classification loop of `ReadHosts`, accumulating into `acc`
exactly as the Go loop appends to `*hosts`. -/
def classifyRows (acc : List Entry) : List Str → List Entry
  | [] => acc
  | row :: rest =>
    let r := trimSpace row
    if startsWithHash r || r.isEmpty then classifyRows (acc ++ [Entry.str r]) rest
    else
      let fs := fields r
      if fs.length < 2 then classifyRows (acc ++ [Entry.str r]) rest
      else classifyRows (acc ++ [Entry.host ⟨fs.headD [], fs.tail⟩]) rest

/-- `ReadHosts` from `hosts.go`: split the file contents on newlines and
classify each row. -/
def ReadHosts (contents : Str) : List Entry :=
  classifyRows [] (splitOnNl contents)

/-- `RenderHosts` from `hosts.go`: the full renderer.  Note that the
`string` case writes the stored text with no line terminator, and any value
that is neither a `string` nor a `Host` (the type-switch default) writes
nothing. -/
def RenderHosts (hosts : List Entry) : Str :=
  hosts.foldl (fun buf e =>
    match e with
    | Entry.str v => buf ++ v
    | Entry.host h => buf ++ (h.IP ++ '\t' :: (joinSpace h.Hostnames ++ ['\n']))
    | Entry.slice _ => buf) []

/-- The loop of `uniqueStrings`, with the `seen` set as a list. -/
def uniqueStringsLoop (seen : List Str) : List Str → List Str
  | [] => []
  | v :: rest =>
    if v ∈ seen then uniqueStringsLoop seen rest
    else v :: uniqueStringsLoop (v :: seen) rest

/-- `uniqueStrings` from `hosts.go`: keep the first occurrence of each string. -/
def uniqueStrings (s : List Str) : List Str := uniqueStringsLoop [] s

/-- The index-scanning loop of `removeHostname`: `acc` plays the role of the
Go `removeIndex` variable (`none` for `-1`), overwritten on every match so it
ends at the last matching index. -/
def removeIndexLoop (remove : Str) : List Str → Nat → Option Nat → Option Nat
  | [], _, acc => acc
  | hostname :: rest, i, acc =>
    removeIndexLoop remove rest (i + 1) (if hostname = remove then some i else acc)

/-- `removeHostname` from `hosts.go`: delete the element at the last index
whose value equals `remove`, if any. -/
def removeHostname (hostnames : List Str) (remove : Str) : List Str :=
  match removeIndexLoop remove hostnames 0 none with
  | some i => hostnames.take i ++ hostnames.drop (i + 1)
  | none => hostnames

/-- The scan-and-update loop of the `add` command: walk the entries, and at
the first `Host` whose `IP` matches, replace its hostnames by
`uniqueStrings` of old-then-new and stop (the Go `break`); the flag mirrors
the Go `updated` variable. -/
def addHostLoop (ip : Str) (names : List Str) : List Entry → List Entry × Bool
  | [] => ([], false)
  | Entry.host h :: rest =>
    if h.IP = ip then (Entry.host ⟨h.IP, uniqueStrings (h.Hostnames ++ names)⟩ :: rest, true)
    else
      let p := addHostLoop ip names rest
      (Entry.host h :: p.1, p.2)
  | e :: rest =>
    let p := addHostLoop ip names rest
    (e :: p.1, p.2)

/-- The `add` command body (`cmdAddHost.Run`): update the first matching
record, or append a fresh deduplicated record when none matched. -/
def cmdAddHost (hosts : List Entry) (ip : Str) (names : List Str) : List Entry :=
  let p := addHostLoop ip names hosts
  if p.2 then p.1 else p.1 ++ [Entry.host ⟨ip, uniqueStrings names⟩]

/-- The `resolve` command body (`cmdResolve.Run`): print the IP of the first
record containing the hostname; `none` models falling off the loop with no
output. -/
def cmdResolve : List Entry → Str → Option Str
  | [], _ => none
  | Entry.host h :: rest, searchHostname =>
    if searchHostname ∈ h.Hostnames then some h.IP
    else cmdResolve rest searchHostname
  | _ :: rest, searchHostname => cmdResolve rest searchHostname

/-- One iteration of the `rmip` loop at index `i`.  The Go statement
`hosts = append(hosts[:i], hosts[i+1:])` lacks the `...` spread, so the tail
slice is appended as a single element: we model it with `Entry.slice`. -/
def removeIPStep (ip : Str) (hosts : List Entry) (i : Nat) : List Entry :=
  match hosts.get? i with
  | some (Entry.host h) =>
    if h.IP = ip then hosts.take i ++ [Entry.slice (hosts.drop (i + 1))] else hosts
  | _ => hosts

/-- The backward index loop of `rmip`, from `i - 1` down to `0`. -/
def removeIPLoop (ip : Str) : List Entry → Nat → List Entry
  | hosts, 0 => hosts
  | hosts, i + 1 => removeIPLoop ip (removeIPStep ip hosts i) i

/-- The `rmip` command body (`cmdRemoveIP.Run`). -/
def cmdRemoveIP (hosts : List Entry) (ip : Str) : List Entry :=
  removeIPLoop ip hosts hosts.length

/-- One iteration of the `rmhost` loop at index `i`: strip every requested
hostname from the record there, then either store the reduced record back or
(splicing with the `...` spread, correct here) delete the element. -/
def removeHostStep (hostnames : List Str) (hosts : List Entry) (i : Nat) : List Entry :=
  match hosts.get? i with
  | some (Entry.host h) =>
    let hs := hostnames.foldl removeHostname h.Hostnames
    if hs.length > 0 then hosts.set i (Entry.host ⟨h.IP, hs⟩)
    else hosts.take i ++ hosts.drop (i + 1)
  | _ => hosts

/-- The backward index loop of `rmhost`, from `i - 1` down to `0`. -/
def removeHostLoop (hostnames : List Str) : List Entry → Nat → List Entry
  | hosts, 0 => hosts
  | hosts, i + 1 => removeHostLoop hostnames (removeHostStep hostnames hosts i) i

/-- The `rmhost` command body (`cmdRemoveHost.Run`). -/
def cmdRemoveHost (hosts : List Entry) (hostnames : List Str) : List Entry :=
  removeHostLoop hostnames hosts hosts.length

/-- True when the entry is a `Host` record whose `IP` equals `ip`. -/
def entryMatchesIP (ip : Str) : Entry → Bool
  | Entry.host h => decide (h.IP = ip)
  | _ => false

/-- True when the entry is a `Host` record whose hostname list contains `name`. -/
def entryHasHostname (name : Str) : Entry → Bool
  | Entry.host h => decide (name ∈ h.Hostnames)
  | _ => false

/-- True unless the entry is a `Host` record with an empty hostname list. -/
def entryHostNonempty : Entry → Bool
  | Entry.host h => !h.Hostnames.isEmpty
  | _ => true

/-- Every record of the sequence has a non-empty hostname list. -/
def HostsNonempty (hosts : List Entry) : Prop :=
  ∀ e ∈ hosts, entryHostNonempty e = true

/-- True unless the entry is a `Host` record with duplicated hostnames. -/
def entryHostNodup : Entry → Bool
  | Entry.host h => decide h.Hostnames.Nodup
  | _ => true

/-- Hostnames within every record of the sequence are pairwise distinct. -/
def RecordsNodup (hosts : List Entry) : Prop :=
  ∀ e ∈ hosts, entryHostNodup e = true

instance (hosts : List Entry) : Decidable (HostsNonempty hosts) :=
  List.decidableBAll (fun e => entryHostNonempty e = true) hosts

instance (hosts : List Entry) : Decidable (RecordsNodup hosts) :=
  List.decidableBAll (fun e => entryHostNodup e = true) hosts

lemma mem_uniqueStringsLoop (l : List Str) (seen : List Str) (x : Str) :
    x ∈ uniqueStringsLoop seen l ↔ x ∈ l ∧ x ∉ seen := by
  induction l generalizing seen with
  | nil => simp [uniqueStringsLoop]
  | cons v rest ih =>
    by_cases hv : v ∈ seen
    · rw [uniqueStringsLoop, if_pos hv, ih]
      constructor
      · rintro ⟨hr, hs⟩
        exact ⟨List.mem_cons_of_mem v hr, hs⟩
      · rintro ⟨hor, hs⟩
        rcases List.mem_cons.1 hor with hx | hr
        · exact absurd (hx ▸ hv) hs
        · exact ⟨hr, hs⟩
    · rw [uniqueStringsLoop, if_neg hv]
      constructor
      · intro hmem
        rcases List.mem_cons.1 hmem with hx | hrest
        · exact ⟨List.mem_cons.2 (Or.inl hx), hx ▸ hv⟩
        · rcases (ih (v :: seen)).1 hrest with ⟨hr, hs⟩
          exact ⟨List.mem_cons.2 (Or.inr hr), fun hxs => hs (List.mem_cons_of_mem v hxs)⟩
      · rintro ⟨hor, hs⟩
        rcases List.mem_cons.1 hor with hx | hr
        · exact List.mem_cons.2 (Or.inl hx)
        · by_cases hxv : x = v
          · exact List.mem_cons.2 (Or.inl hxv)
          · refine List.mem_cons.2 (Or.inr ((ih (v :: seen)).2 ⟨hr, ?_⟩))
            intro hmem
            rcases List.mem_cons.1 hmem with h1 | h2
            · exact hxv h1
            · exact hs h2

lemma nodup_uniqueStringsLoop (l : List Str) (seen : List Str) :
    (uniqueStringsLoop seen l).Nodup := by
  induction l generalizing seen with
  | nil => simp [uniqueStringsLoop]
  | cons v rest ih =>
    by_cases hv : v ∈ seen
    · rw [uniqueStringsLoop, if_pos hv]
      exact ih seen
    · rw [uniqueStringsLoop, if_neg hv]
      refine List.nodup_cons.mpr ⟨?_, ih (v :: seen)⟩
      intro hmem
      rcases (mem_uniqueStringsLoop rest (v :: seen) v).1 hmem with ⟨_, hns⟩
      exact hns (List.mem_cons_self v seen)

lemma uniqueStringsLoop_sublist (l : List Str) (seen : List Str) :
    List.Sublist (uniqueStringsLoop seen l) l := by
  induction l generalizing seen with
  | nil => simp [uniqueStringsLoop]
  | cons v rest ih =>
    by_cases hv : v ∈ seen
    · rw [uniqueStringsLoop, if_pos hv]
      exact (ih seen).trans (List.sublist_cons_self v rest)
    · rw [uniqueStringsLoop, if_neg hv]
      exact List.Sublist.cons₂ v (ih (v :: seen))

lemma uniqueStringsLoop_all_seen : ∀ (l seen : List Str),
    (∀ y ∈ l, y ∈ seen) → uniqueStringsLoop seen l = []
  | [], _, _ => rfl
  | v :: rest, seen, h => by
    rw [uniqueStringsLoop, if_pos (h v (List.mem_cons_self v rest))]
    exact uniqueStringsLoop_all_seen rest seen (fun y hy => h y (List.mem_cons_of_mem v hy))

lemma uniqueStringsLoop_append_absorb : ∀ (xs seen ys : List Str),
    (∀ y ∈ ys, y ∈ seen ∨ y ∈ xs) →
    uniqueStringsLoop seen (xs ++ ys) = uniqueStringsLoop seen xs
  | [], seen, ys, h => by
    rw [List.nil_append]
    exact uniqueStringsLoop_all_seen ys seen
      (fun y hy => (h y hy).resolve_right (List.not_mem_nil y))
  | v :: rest, seen, ys, h => by
    by_cases hv : v ∈ seen
    · rw [List.cons_append, uniqueStringsLoop, if_pos hv, uniqueStringsLoop, if_pos hv]
      refine uniqueStringsLoop_append_absorb rest seen ys (fun y hy => ?_)
      rcases h y hy with hs | hm
      · exact Or.inl hs
      · rcases List.mem_cons.1 hm with h1 | h2
        · exact Or.inl (h1 ▸ hv)
        · exact Or.inr h2
    · rw [List.cons_append, uniqueStringsLoop, if_neg hv, uniqueStringsLoop, if_neg hv]
      congr 1
      refine uniqueStringsLoop_append_absorb rest (v :: seen) ys (fun y hy => ?_)
      rcases h y hy with hs | hm
      · exact Or.inl (List.mem_cons_of_mem v hs)
      · rcases List.mem_cons.1 hm with h1 | h2
        · exact Or.inl (h1 ▸ List.mem_cons_self v seen)
        · exact Or.inr h2

lemma uniqueStringsLoop_id_of : ∀ (l seen : List Str),
    l.Nodup → (∀ x ∈ l, x ∉ seen) → uniqueStringsLoop seen l = l
  | [], _, _, _ => rfl
  | v :: rest, seen, hnd, hdisj => by
    rw [uniqueStringsLoop, if_neg (hdisj v (List.mem_cons_self v rest))]
    congr 1
    refine uniqueStringsLoop_id_of rest (v :: seen) (List.Nodup.of_cons hnd) ?_
    intro x hx hmem
    rcases List.mem_cons.1 hmem with h1 | h2
    · exact (List.nodup_cons.1 hnd).1 (h1 ▸ hx)
    · exact hdisj x (List.mem_cons_of_mem v hx) h2

lemma uniqueStrings_idem (l : List Str) :
    uniqueStrings (uniqueStrings l) = uniqueStrings l :=
  uniqueStringsLoop_id_of (uniqueStringsLoop [] l) []
    (nodup_uniqueStringsLoop l []) (fun x _ => List.not_mem_nil x)

lemma uniq_absorb_round (A ns : List Str) (h : ∀ y ∈ ns, y ∈ A) :
    uniqueStrings (uniqueStrings A ++ ns) = uniqueStrings A := by
  have h1 : uniqueStringsLoop [] (uniqueStrings A ++ ns) =
      uniqueStringsLoop [] (uniqueStrings A) := by
    refine uniqueStringsLoop_append_absorb (uniqueStrings A) [] ns (fun y hy => ?_)
    exact Or.inr ((mem_uniqueStringsLoop A [] y).2 ⟨h y hy, List.not_mem_nil y⟩)
  calc uniqueStrings (uniqueStrings A ++ ns)
      = uniqueStrings (uniqueStrings A) := h1
    _ = uniqueStrings A := uniqueStrings_idem A

lemma uniqueStrings_ne_nil (l : List Str) (h : l ≠ []) : uniqueStrings l ≠ [] := by
  cases l with
  | nil => exact absurd rfl h
  | cons v rest =>
    rw [uniqueStrings, uniqueStringsLoop, if_neg (List.not_mem_nil v)]
    exact List.cons_ne_nil _ _

lemma uniqueStringsLoop_congr : ∀ (l s1 s2 : List Str),
    (∀ x, x ∈ s1 ↔ x ∈ s2) → uniqueStringsLoop s1 l = uniqueStringsLoop s2 l
  | [], _, _, _ => rfl
  | v :: rest, s1, s2, h => by
    by_cases hv : v ∈ s1
    · rw [uniqueStringsLoop, if_pos hv, uniqueStringsLoop, if_pos ((h v).1 hv)]
      exact uniqueStringsLoop_congr rest s1 s2 h
    · rw [uniqueStringsLoop, if_neg hv, uniqueStringsLoop,
        if_neg (fun hx => hv ((h v).2 hx))]
      congr 1
      refine uniqueStringsLoop_congr rest (v :: s1) (v :: s2) (fun x => ?_)
      simp only [List.mem_cons]
      exact or_congr Iff.rfl (h x)

lemma uniqueStringsLoop_cons_seen : ∀ (l seen : List Str) (x : Str),
    uniqueStringsLoop (x :: seen) l =
      uniqueStringsLoop seen (l.filter (fun y => decide (y ≠ x)))
  | [], _, _ => rfl
  | v :: rest, seen, x => by
    by_cases hvx : v = x
    · subst hvx
      rw [uniqueStringsLoop, if_pos (List.mem_cons_self v seen),
        List.filter_cons_of_neg (by simp)]
      exact uniqueStringsLoop_cons_seen rest seen v
    · rw [List.filter_cons_of_pos (by simp [hvx])]
      by_cases hv : v ∈ seen
      · rw [uniqueStringsLoop, if_pos (List.mem_cons_of_mem x hv),
          uniqueStringsLoop, if_pos hv]
        exact uniqueStringsLoop_cons_seen rest seen x
      · have hnm : v ∉ x :: seen := by
          intro hmem
          rcases List.mem_cons.1 hmem with h1 | h2
          · exact hvx h1
          · exact hv h2
        rw [uniqueStringsLoop, if_neg hnm, uniqueStringsLoop, if_neg hv]
        congr 1
        calc uniqueStringsLoop (v :: x :: seen) rest
            = uniqueStringsLoop (x :: v :: seen) rest := by
              refine uniqueStringsLoop_congr rest _ _ (fun y => ?_)
              simp only [List.mem_cons]
              tauto
          _ = uniqueStringsLoop (v :: seen) (rest.filter (fun y => decide (y ≠ x))) :=
              uniqueStringsLoop_cons_seen rest (v :: seen) x

lemma uniqueStrings_cons (x : Str) (l : List Str) :
    uniqueStrings (x :: l) = x :: uniqueStrings (l.filter (fun y => decide (y ≠ x))) := by
  rw [uniqueStrings, uniqueStringsLoop, if_neg (List.not_mem_nil x)]
  congr 1
  exact uniqueStringsLoop_cons_seen l [] x

lemma addHostLoop_not_found : ∀ (hosts : List Entry) (ip : Str) (names : List Str),
    (∀ e ∈ hosts, entryMatchesIP ip e = false) →
    addHostLoop ip names hosts = (hosts, false)
  | [], _, _, _ => rfl
  | Entry.host h :: rest, ip, names, hall => by
    have hh := hall (Entry.host h) (List.mem_cons_self _ rest)
    have hne : ¬ h.IP = ip := by simpa [entryMatchesIP] using hh
    have ih := addHostLoop_not_found rest ip names
      (fun e he => hall e (List.mem_cons_of_mem _ he))
    simp only [addHostLoop, if_neg hne, ih]
  | Entry.str s :: rest, ip, names, hall => by
    have ih := addHostLoop_not_found rest ip names
      (fun e he => hall e (List.mem_cons_of_mem _ he))
    simp only [addHostLoop, ih]
  | Entry.slice l :: rest, ip, names, hall => by
    have ih := addHostLoop_not_found rest ip names
      (fun e he => hall e (List.mem_cons_of_mem _ he))
    simp only [addHostLoop, ih]

lemma addHostLoop_found : ∀ (pre : List Entry) (h : Host) (post : List Entry)
    (ip : Str) (names : List Str),
    (∀ e ∈ pre, entryMatchesIP ip e = false) → h.IP = ip →
    addHostLoop ip names (pre ++ Entry.host h :: post) =
      (pre ++ Entry.host ⟨h.IP, uniqueStrings (h.Hostnames ++ names)⟩ :: post, true)
  | [], h, post, ip, names, _, hip => by
    simp only [List.nil_append, addHostLoop, if_pos hip]
  | Entry.host h2 :: pre, h, post, ip, names, hpre, hip => by
    have hh := hpre (Entry.host h2) (List.mem_cons_self _ pre)
    have hne : ¬ h2.IP = ip := by simpa [entryMatchesIP] using hh
    have ih := addHostLoop_found pre h post ip names
      (fun e he => hpre e (List.mem_cons_of_mem _ he)) hip
    simp only [List.cons_append, addHostLoop, if_neg hne, List.append_eq]
    rw [ih]
  | Entry.str s :: pre, h, post, ip, names, hpre, hip => by
    have ih := addHostLoop_found pre h post ip names
      (fun e he => hpre e (List.mem_cons_of_mem _ he)) hip
    simp only [List.cons_append, addHostLoop, List.append_eq]
    rw [ih]
  | Entry.slice l :: pre, h, post, ip, names, hpre, hip => by
    have ih := addHostLoop_found pre h post ip names
      (fun e he => hpre e (List.mem_cons_of_mem _ he)) hip
    simp only [List.cons_append, addHostLoop, List.append_eq]
    rw [ih]

lemma addHostLoop_spec : ∀ (hosts : List Entry) (ip : Str) (names : List Str),
    (∃ pre h post, hosts = pre ++ Entry.host h :: post ∧
      (∀ e ∈ pre, entryMatchesIP ip e = false) ∧ h.IP = ip ∧
      addHostLoop ip names hosts =
        (pre ++ Entry.host ⟨h.IP, uniqueStrings (h.Hostnames ++ names)⟩ :: post, true)) ∨
    ((∀ e ∈ hosts, entryMatchesIP ip e = false) ∧
      addHostLoop ip names hosts = (hosts, false))
  | [], ip, names => Or.inr ⟨fun e he => absurd he (List.not_mem_nil e), rfl⟩
  | Entry.host h :: rest, ip, names => by
    by_cases hip : h.IP = ip
    · refine Or.inl ⟨[], h, rest, by simp, fun e he => absurd he (List.not_mem_nil e), hip, ?_⟩
      exact addHostLoop_found [] h rest ip names (fun e he => absurd he (List.not_mem_nil e)) hip
    · have hm : entryMatchesIP ip (Entry.host h) = false := by
        simp [entryMatchesIP, hip]
      rcases addHostLoop_spec rest ip names with ⟨pre, h0, post, heq, hpre, hip0, _⟩ | ⟨hall, _⟩
      · refine Or.inl ⟨Entry.host h :: pre, h0, post, by rw [heq, List.cons_append], ?_, hip0, ?_⟩
        · intro e he
          rcases List.mem_cons.1 he with h1 | h2
          · exact h1 ▸ hm
          · exact hpre e h2
        · rw [heq]
          exact addHostLoop_found (Entry.host h :: pre) h0 post ip names
            (fun e he => by
              rcases List.mem_cons.1 he with h1 | h2
              · exact h1 ▸ hm
              · exact hpre e h2) hip0
      · refine Or.inr ⟨?_, ?_⟩
        · intro e he
          rcases List.mem_cons.1 he with h1 | h2
          · exact h1 ▸ hm
          · exact hall e h2
        · exact addHostLoop_not_found (Entry.host h :: rest) ip names
            (fun e he => by
              rcases List.mem_cons.1 he with h1 | h2
              · exact h1 ▸ hm
              · exact hall e h2)
  | Entry.str s :: rest, ip, names => by
    have hm : entryMatchesIP ip (Entry.str s) = false := rfl
    rcases addHostLoop_spec rest ip names with ⟨pre, h0, post, heq, hpre, hip0, _⟩ | ⟨hall, _⟩
    · refine Or.inl ⟨Entry.str s :: pre, h0, post, by rw [heq, List.cons_append], ?_, hip0, ?_⟩
      · intro e he
        rcases List.mem_cons.1 he with h1 | h2
        · exact h1 ▸ hm
        · exact hpre e h2
      · rw [heq]
        exact addHostLoop_found (Entry.str s :: pre) h0 post ip names
          (fun e he => by
            rcases List.mem_cons.1 he with h1 | h2
            · exact h1 ▸ hm
            · exact hpre e h2) hip0
    · refine Or.inr ⟨?_, ?_⟩
      · intro e he
        rcases List.mem_cons.1 he with h1 | h2
        · exact h1 ▸ hm
        · exact hall e h2
      · exact addHostLoop_not_found (Entry.str s :: rest) ip names
          (fun e he => by
            rcases List.mem_cons.1 he with h1 | h2
            · exact h1 ▸ hm
            · exact hall e h2)
  | Entry.slice l :: rest, ip, names => by
    have hm : entryMatchesIP ip (Entry.slice l) = false := rfl
    rcases addHostLoop_spec rest ip names with ⟨pre, h0, post, heq, hpre, hip0, _⟩ | ⟨hall, _⟩
    · refine Or.inl ⟨Entry.slice l :: pre, h0, post, by rw [heq, List.cons_append], ?_, hip0, ?_⟩
      · intro e he
        rcases List.mem_cons.1 he with h1 | h2
        · exact h1 ▸ hm
        · exact hpre e h2
      · rw [heq]
        exact addHostLoop_found (Entry.slice l :: pre) h0 post ip names
          (fun e he => by
            rcases List.mem_cons.1 he with h1 | h2
            · exact h1 ▸ hm
            · exact hpre e h2) hip0
    · refine Or.inr ⟨?_, ?_⟩
      · intro e he
        rcases List.mem_cons.1 he with h1 | h2
        · exact h1 ▸ hm
        · exact hall e h2
      · exact addHostLoop_not_found (Entry.slice l :: rest) ip names
          (fun e he => by
            rcases List.mem_cons.1 he with h1 | h2
            · exact h1 ▸ hm
            · exact hall e h2)

lemma cmdResolve_not_found : ∀ (hosts : List Entry) (name : Str),
    (∀ e ∈ hosts, entryHasHostname name e = false) → cmdResolve hosts name = none
  | [], _, _ => rfl
  | Entry.host h :: rest, name, hall => by
    have hh := hall (Entry.host h) (List.mem_cons_self _ rest)
    have hnm : ¬ name ∈ h.Hostnames := by simpa [entryHasHostname] using hh
    rw [cmdResolve, if_neg hnm]
    exact cmdResolve_not_found rest name (fun e he => hall e (List.mem_cons_of_mem _ he))
  | Entry.str s :: rest, name, hall => by
    simp only [cmdResolve]
    exact cmdResolve_not_found rest name (fun e he => hall e (List.mem_cons_of_mem _ he))
  | Entry.slice l :: rest, name, hall => by
    simp only [cmdResolve]
    exact cmdResolve_not_found rest name (fun e he => hall e (List.mem_cons_of_mem _ he))

lemma cmdResolve_found : ∀ (pre : List Entry) (h : Host) (post : List Entry) (name : Str),
    (∀ e ∈ pre, entryHasHostname name e = false) → name ∈ h.Hostnames →
    cmdResolve (pre ++ Entry.host h :: post) name = some h.IP
  | [], h, post, name, _, hmem => by
    rw [List.nil_append, cmdResolve, if_pos hmem]
  | Entry.host h2 :: pre, h, post, name, hpre, hmem => by
    have hh := hpre (Entry.host h2) (List.mem_cons_self _ pre)
    have hnm : ¬ name ∈ h2.Hostnames := by simpa [entryHasHostname] using hh
    rw [List.cons_append, cmdResolve, if_neg hnm]
    exact cmdResolve_found pre h post name
      (fun e he => hpre e (List.mem_cons_of_mem _ he)) hmem
  | Entry.str s :: pre, h, post, name, hpre, hmem => by
    rw [List.cons_append]
    simp only [cmdResolve]
    exact cmdResolve_found pre h post name
      (fun e he => hpre e (List.mem_cons_of_mem _ he)) hmem
  | Entry.slice l :: pre, h, post, name, hpre, hmem => by
    rw [List.cons_append]
    simp only [cmdResolve]
    exact cmdResolve_found pre h post name
      (fun e he => hpre e (List.mem_cons_of_mem _ he)) hmem

lemma removeIndexLoop_not_mem : ∀ (l : List Str) (x : Str) (i : Nat) (acc : Option Nat),
    x ∉ l → removeIndexLoop x l i acc = acc
  | [], _, _, _, _ => rfl
  | v :: rest, x, i, acc, h => by
    have hvx : ¬ v = x := fun he => h (he ▸ List.mem_cons_self v rest)
    rw [removeIndexLoop, if_neg hvx]
    exact removeIndexLoop_not_mem rest x (i + 1) acc
      (fun hm => h (List.mem_cons_of_mem v hm))

lemma removeIndexLoop_last : ∀ (pre : List Str) (x : Str) (post : List Str)
    (i : Nat) (acc : Option Nat),
    x ∉ post → removeIndexLoop x (pre ++ x :: post) i acc = some (i + pre.length)
  | [], x, post, i, acc, h => by
    rw [List.nil_append, removeIndexLoop, if_pos rfl,
      removeIndexLoop_not_mem post x (i + 1) (some i) h]
    simp
  | v :: pre, x, post, i, acc, h => by
    rw [List.cons_append, removeIndexLoop,
      removeIndexLoop_last pre x post (i + 1) _ h]
    simp only [List.length_cons]
    congr 1
    omega

lemma splice_take_drop : ∀ {α : Type} (pre : List α) (x : α) (post : List α),
    (pre ++ x :: post).take pre.length ++ (pre ++ x :: post).drop (pre.length + 1) =
      pre ++ post
  | _, [], x, post => by simp
  | _, v :: pre, x, post => by
    simp only [List.cons_append, List.length_cons, List.take_succ_cons,
      List.drop_succ_cons]
    exact congrArg (v :: ·) (splice_take_drop pre x post)

lemma take_append_drop_succ_sublist {α : Type} (l : List α) (i : Nat) :
    List.Sublist (l.take i ++ l.drop (i + 1)) l := by
  have h1 : List.Sublist (l.drop (i + 1)) (l.drop i) := by
    have he : l.drop (i + 1) = (l.drop i).drop 1 := by
      rw [List.drop_drop]
    rw [he]
    exact List.drop_sublist 1 (l.drop i)
  have h2 := List.Sublist.append_left h1 (l.take i)
  rw [List.take_append_drop] at h2
  exact h2

lemma removeHostname_not_mem (l : List Str) (x : Str) (h : x ∉ l) :
    removeHostname l x = l := by
  rw [removeHostname, removeIndexLoop_not_mem l x 0 none h]

lemma removeHostname_last (pre : List Str) (x : Str) (post : List Str) (h : x ∉ post) :
    removeHostname (pre ++ x :: post) x = pre ++ post := by
  rw [removeHostname, removeIndexLoop_last pre x post 0 none h]
  simp only [Nat.zero_add]
  exact splice_take_drop pre x post

lemma removeHostname_sublist (l : List Str) (x : Str) :
    List.Sublist (removeHostname l x) l := by
  cases h : removeIndexLoop x l 0 none with
  | none =>
    simp only [removeHostname, h]
    exact List.Sublist.refl l
  | some i =>
    simp only [removeHostname, h]
    exact take_append_drop_succ_sublist l i

lemma foldl_removeHostname_sublist : ∀ (names : List Str) (hs : List Str),
    List.Sublist (names.foldl removeHostname hs) hs
  | [], hs => List.Sublist.refl hs
  | n :: names, hs => by
    rw [List.foldl_cons]
    exact (foldl_removeHostname_sublist names (removeHostname hs n)).trans
      (removeHostname_sublist hs n)

lemma removeIPStep_preserves (P : Entry → Bool)
    (hslice : ∀ l, P (Entry.slice l) = true) (ip : Str) (hosts : List Entry) (i : Nat)
    (hp : ∀ e ∈ hosts, P e = true) :
    ∀ e ∈ removeIPStep ip hosts i, P e = true := by
  intro e he
  cases hg : hosts.get? i with
  | none =>
    simp only [removeIPStep, hg] at he
    exact hp e he
  | some e0 =>
    cases e0 with
    | host h =>
      simp only [removeIPStep, hg] at he
      by_cases hip : h.IP = ip
      · rw [if_pos hip] at he
        rcases List.mem_append.1 he with h1 | h2
        · exact hp e (List.take_subset i hosts h1)
        · rw [List.mem_singleton.1 h2]
          exact hslice _
      · rw [if_neg hip] at he
        exact hp e he
    | str s =>
      simp only [removeIPStep, hg] at he
      exact hp e he
    | slice l =>
      simp only [removeIPStep, hg] at he
      exact hp e he

lemma removeIPLoop_preserves (P : Entry → Bool)
    (hslice : ∀ l, P (Entry.slice l) = true) (ip : Str) :
    ∀ (fuel : Nat) (hosts : List Entry),
    (∀ e ∈ hosts, P e = true) → ∀ e ∈ removeIPLoop ip hosts fuel, P e = true
  | 0, _, hp => hp
  | i + 1, hosts, hp =>
    removeIPLoop_preserves P hslice ip i (removeIPStep ip hosts i)
      (removeIPStep_preserves P hslice ip hosts i hp)

lemma removeHostStep_nonempty (names : List Str) (hosts : List Entry) (i : Nat)
    (hp : HostsNonempty hosts) : HostsNonempty (removeHostStep names hosts i) := by
  intro e he
  cases hg : hosts.get? i with
  | none =>
    simp only [removeHostStep, hg] at he
    exact hp e he
  | some e0 =>
    cases e0 with
    | host h =>
      simp only [removeHostStep, hg] at he
      by_cases hlen : (names.foldl removeHostname h.Hostnames).length > 0
      · rw [if_pos hlen] at he
        rcases List.mem_or_eq_of_mem_set he with h1 | h2
        · exact hp e h1
        · rw [h2]
          simp only [entryHostNonempty, Bool.not_eq_true']
          cases hc : List.foldl removeHostname h.Hostnames names with
          | nil =>
            rw [hc] at hlen
            simp at hlen
          | cons a t => rfl
      · rw [if_neg hlen] at he
        rcases List.mem_append.1 he with h1 | h2
        · exact hp e (List.take_subset i hosts h1)
        · exact hp e (List.drop_subset (i + 1) hosts h2)
    | str s =>
      simp only [removeHostStep, hg] at he
      exact hp e he
    | slice l =>
      simp only [removeHostStep, hg] at he
      exact hp e he

lemma removeHostStep_nodup (names : List Str) (hosts : List Entry) (i : Nat)
    (hp : RecordsNodup hosts) : RecordsNodup (removeHostStep names hosts i) := by
  intro e he
  cases hg : hosts.get? i with
  | none =>
    simp only [removeHostStep, hg] at he
    exact hp e he
  | some e0 =>
    cases e0 with
    | host h =>
      simp only [removeHostStep, hg] at he
      by_cases hlen : (names.foldl removeHostname h.Hostnames).length > 0
      · rw [if_pos hlen] at he
        rcases List.mem_or_eq_of_mem_set he with h1 | h2
        · exact hp e h1
        · rw [h2]
          have hnd : h.Hostnames.Nodup := by
            have := hp (Entry.host h) (List.get?_mem hg)
            simpa [entryHostNodup] using this
          simp only [entryHostNodup, decide_eq_true_eq]
          exact hnd.sublist (foldl_removeHostname_sublist names h.Hostnames)
      · rw [if_neg hlen] at he
        rcases List.mem_append.1 he with h1 | h2
        · exact hp e (List.take_subset i hosts h1)
        · exact hp e (List.drop_subset (i + 1) hosts h2)
    | str s =>
      simp only [removeHostStep, hg] at he
      exact hp e he
    | slice l =>
      simp only [removeHostStep, hg] at he
      exact hp e he

lemma removeHostLoop_nonempty (names : List Str) : ∀ (fuel : Nat) (hosts : List Entry),
    HostsNonempty hosts → HostsNonempty (removeHostLoop names hosts fuel)
  | 0, _, hp => hp
  | i + 1, hosts, hp =>
    removeHostLoop_nonempty names i (removeHostStep names hosts i)
      (removeHostStep_nonempty names hosts i hp)

lemma removeHostLoop_nodup (names : List Str) : ∀ (fuel : Nat) (hosts : List Entry),
    RecordsNodup hosts → RecordsNodup (removeHostLoop names hosts fuel)
  | 0, _, hp => hp
  | i + 1, hosts, hp =>
    removeHostLoop_nodup names i (removeHostStep names hosts i)
      (removeHostStep_nodup names hosts i hp)

lemma classifyRows_nonempty : ∀ (rows : List Str) (acc : List Entry),
    HostsNonempty acc → HostsNonempty (classifyRows acc rows)
  | [], _, hp => hp
  | row :: rest, acc, hp => by
    simp only [classifyRows]
    by_cases h1 : (startsWithHash (trimSpace row) || (trimSpace row).isEmpty) = true
    · rw [if_pos h1]
      refine classifyRows_nonempty rest _ (fun e he => ?_)
      rcases List.mem_append.1 he with ha | hb
      · exact hp e ha
      · rw [List.mem_singleton.1 hb]
        rfl
    · rw [if_neg h1]
      by_cases h2 : (fields (trimSpace row)).length < 2
      · rw [if_pos h2]
        refine classifyRows_nonempty rest _ (fun e he => ?_)
        rcases List.mem_append.1 he with ha | hb
        · exact hp e ha
        · rw [List.mem_singleton.1 hb]
          rfl
      · rw [if_neg h2]
        refine classifyRows_nonempty rest _ (fun e he => ?_)
        rcases List.mem_append.1 he with ha | hb
        · exact hp e ha
        · rw [List.mem_singleton.1 hb]
          have hlen : 2 ≤ (fields (trimSpace row)).length := Nat.le_of_not_lt h2
          cases hf : fields (trimSpace row) with
          | nil =>
            rw [hf] at hlen
            exact absurd hlen (by simp)
          | cons a fs =>
            rw [hf] at hlen
            cases fs with
            | nil => exact absurd hlen (by simp)
            | cons b fs2 =>
              simp [entryHostNonempty, hf]

/-- Spec-side restatement of the parser's per-row classification (claim C8):
trim the row; an empty or comment row and a row with fewer than two fields
stay passthrough text, any other row becomes a record of first field and
remaining fields. -/
def classifyRow (row : Str) : Entry :=
  let r := trimSpace row
  if startsWithHash r || r.isEmpty then Entry.str r
  else
    let fs := fields r
    if fs.length < 2 then Entry.str r
    else Entry.host ⟨fs.headD [], fs.tail⟩

lemma classifyRows_map : ∀ (rows : List Str) (acc : List Entry),
    classifyRows acc rows = acc ++ rows.map classifyRow
  | [], acc => by simp [classifyRows]
  | row :: rest, acc => by
    simp only [classifyRows, classifyRow, List.map_cons]
    by_cases h1 : (startsWithHash (trimSpace row) || (trimSpace row).isEmpty) = true
    · rw [if_pos h1, if_pos h1, classifyRows_map rest]
      simp
    · rw [if_neg h1, if_neg h1]
      by_cases h2 : (fields (trimSpace row)).length < 2
      · rw [if_pos h2, if_pos h2, classifyRows_map rest]
        simp
      · rw [if_neg h2, if_neg h2, classifyRows_map rest]
        simp

lemma entryHostNonempty_of_ne_nil (s : Str) (hs : List Str) (h : hs ≠ []) :
    entryHostNonempty (Entry.host ⟨s, hs⟩) = true := by
  cases hs with
  | nil => exact absurd rfl h
  | cons a t => rfl

lemma entryHostNodup_uniq (s : Str) (l : List Str) :
    entryHostNodup (Entry.host ⟨s, uniqueStrings l⟩) = true := by
  simp only [entryHostNodup, decide_eq_true_eq]
  exact nodup_uniqueStringsLoop l []

lemma cmdAddHost_nonempty (hosts : List Entry) (ip : Str) (names : List Str)
    (hp : HostsNonempty hosts) (hn : names ≠ []) :
    HostsNonempty (cmdAddHost hosts ip names) := by
  rcases addHostLoop_spec hosts ip names with ⟨pre, h, post, heq, _, _, heval⟩ | ⟨_, heval⟩
  · intro e he
    simp only [cmdAddHost, heval] at he
    rcases List.mem_append.1 he with h1 | h2
    · exact hp e (heq ▸ List.mem_append_left _ h1)
    · rcases List.mem_cons.1 h2 with h3 | h4
      · rw [h3]
        refine entryHostNonempty_of_ne_nil _ _ (uniqueStrings_ne_nil _ ?_)
        intro hnil
        rcases List.append_eq_nil.1 hnil with ⟨_, hnn⟩
        exact hn hnn
      · exact hp e (heq ▸ List.mem_append_right _ (List.mem_cons_of_mem _ h4))
  · intro e he
    simp only [cmdAddHost, heval] at he
    rcases List.mem_append.1 he with h1 | h2
    · exact hp e h1
    · rw [List.mem_singleton.1 h2]
      exact entryHostNonempty_of_ne_nil _ _ (uniqueStrings_ne_nil _ hn)

lemma cmdAddHost_nodup (hosts : List Entry) (ip : Str) (names : List Str)
    (hp : RecordsNodup hosts) : RecordsNodup (cmdAddHost hosts ip names) := by
  rcases addHostLoop_spec hosts ip names with ⟨pre, h, post, heq, _, _, heval⟩ | ⟨_, heval⟩
  · intro e he
    simp only [cmdAddHost, heval] at he
    rcases List.mem_append.1 he with h1 | h2
    · exact hp e (heq ▸ List.mem_append_left _ h1)
    · rcases List.mem_cons.1 h2 with h3 | h4
      · rw [h3]
        exact entryHostNodup_uniq _ _
      · exact hp e (heq ▸ List.mem_append_right _ (List.mem_cons_of_mem _ h4))
  · intro e he
    simp only [cmdAddHost, heval] at he
    rcases List.mem_append.1 he with h1 | h2
    · exact hp e h1
    · rw [List.mem_singleton.1 h2]
      exact entryHostNodup_uniq _ _

lemma cmdAddHost_eq_of_found (hosts res : List Entry) (ip : Str) (names : List Str)
    (hres : addHostLoop ip names hosts = (res, true)) :
    cmdAddHost hosts ip names = res := by
  show (if (addHostLoop ip names hosts).2 = true then (addHostLoop ip names hosts).1
    else (addHostLoop ip names hosts).1 ++ [Entry.host ⟨ip, uniqueStrings names⟩]) = res
  rw [hres]
  rfl

lemma cmdAddHost_eq_of_not_found (hosts res : List Entry) (ip : Str) (names : List Str)
    (hres : addHostLoop ip names hosts = (res, false)) :
    cmdAddHost hosts ip names = res ++ [Entry.host ⟨ip, uniqueStrings names⟩] := by
  show (if (addHostLoop ip names hosts).2 = true then (addHostLoop ip names hosts).1
    else (addHostLoop ip names hosts).1 ++ [Entry.host ⟨ip, uniqueStrings names⟩]) =
    res ++ [Entry.host ⟨ip, uniqueStrings names⟩]
  rw [hres]
  rfl

/-- Claim C1: the spec asserts `render(parse(text)) = text` for text made of
comment lines, blank lines and two-or-more-field rows.  The code refutes it:
`RenderHosts` writes Passthrough entries without a line terminator, so the
comment-only file consisting of the two lines `# a` and `# b` renders back as
the single line `# a# b`. -/
theorem claim1_roundtrip_fails :
    RenderHosts (ReadHosts ("# a\n# b\n".toList)) = "# a# b".toList ∧
    RenderHosts (ReadHosts ("# a\n# b\n".toList)) ≠ "# a\n# b\n".toList := by
  exact ⟨rfl, by decide⟩

/-- Claim C2: the spec says remove-IP deletes exactly the matching Records and
leaves Passthrough entries unchanged.  The code's
`hosts = append(hosts[:i], hosts[i+1:])` lacks the `...` spread, so removing
`1.1.1.1` from the file `1.1.1.1<tab>a`, `# keep` replaces the whole tail with
one nested slice value: the comment is no longer a top-level entry and the
render output is empty instead of preserving `# keep`. -/
theorem claim2_removeIP_fails :
    cmdRemoveIP (ReadHosts ("1.1.1.1\ta\n# keep\n".toList)) ("1.1.1.1".toList) =
      [Entry.slice [Entry.str ("# keep".toList), Entry.str []]] ∧
    RenderHosts (cmdRemoveIP (ReadHosts ("1.1.1.1\ta\n# keep\n".toList))
      ("1.1.1.1".toList)) = [] ∧
    cmdRemoveIP (ReadHosts ("1.1.1.1\ta\n# keep\n".toList)) ("1.1.1.1".toList) ≠
      [Entry.str ("# keep".toList), Entry.str []] := by
  refine ⟨rfl, rfl, ?_⟩
  intro hEq
  rw [show cmdRemoveIP (ReadHosts ("1.1.1.1\ta\n# keep\n".toList)) ("1.1.1.1".toList) =
      [Entry.slice [Entry.str ("# keep".toList), Entry.str []]] from rfl] at hEq
  have hlen := congrArg List.length hEq
  simp at hlen

/-- Claim C3: the spec says the full renderer emits a Passthrough entry as its
stored text followed by a line terminator.  The code emits the stored text
with no terminator, so a comment entry is glued to the record that follows
it. -/
theorem claim3_render_fails :
    RenderHosts [Entry.str ("# x".toList),
      Entry.host ⟨"1.2.3.4".toList, ["a".toList]⟩] = "# x1.2.3.4\ta\n".toList ∧
    RenderHosts [Entry.str ("# x".toList),
      Entry.host ⟨"1.2.3.4".toList, ["a".toList]⟩] ≠ "# x\n1.2.3.4\ta\n".toList := by
  exact ⟨rfl, by decide⟩

/-- Claim C4: addHost updates exactly the first Record whose ip matches,
replacing its hostnames by the deduplicated concatenation of old and new,
leaving every other entry (including later Records with the same ip)
unchanged; with no matching Record it appends a single new Record with the
deduplicated new hostnames. -/
theorem claim4_addHost (hosts pre post : List Entry) (h : Host) (ip : Str)
    (names : List Str) :
    (hosts = pre ++ Entry.host h :: post → h.IP = ip →
      (∀ e ∈ pre, entryMatchesIP ip e = false) →
      cmdAddHost hosts ip names =
        pre ++ Entry.host ⟨h.IP, uniqueStrings (h.Hostnames ++ names)⟩ :: post) ∧
    ((∀ e ∈ hosts, entryMatchesIP ip e = false) →
      cmdAddHost hosts ip names = hosts ++ [Entry.host ⟨ip, uniqueStrings names⟩]) := by
  constructor
  · intro heq hip hpre
    subst heq
    have heval := addHostLoop_found pre h post ip names hpre hip
    exact cmdAddHost_eq_of_found _ _ ip names heval
  · intro hall
    have heval := addHostLoop_not_found hosts ip names hall
    exact cmdAddHost_eq_of_not_found _ _ ip names heval

/-- Witness for claim C4 at a concrete input: the first `1.1.1.1` record
absorbs the new names deduplicated, the later `1.1.1.1` record is untouched. -/
theorem claim4_addHost_witness :
    cmdAddHost
      [Entry.str ("# c".toList),
       Entry.host ⟨"1.1.1.1".toList, ["a".toList]⟩,
       Entry.host ⟨"1.1.1.1".toList, ["z".toList]⟩]
      ("1.1.1.1".toList) ["b".toList, "a".toList] =
      [Entry.str ("# c".toList),
       Entry.host ⟨"1.1.1.1".toList, ["a".toList, "b".toList]⟩,
       Entry.host ⟨"1.1.1.1".toList, ["z".toList]⟩] := by
  have hh := (claim4_addHost
      [Entry.str ("# c".toList),
       Entry.host ⟨"1.1.1.1".toList, ["a".toList]⟩,
       Entry.host ⟨"1.1.1.1".toList, ["z".toList]⟩]
      [Entry.str ("# c".toList)]
      [Entry.host ⟨"1.1.1.1".toList, ["z".toList]⟩]
      ⟨"1.1.1.1".toList, ["a".toList]⟩
      ("1.1.1.1".toList) ["b".toList, "a".toList]).1 rfl rfl (by decide)
  exact hh.trans (by rfl)

/-- Claim C5: adding the same (ip, hostnames) pair twice yields the same Host
File as adding it once. -/
theorem claim5_add_idempotent (hosts : List Entry) (ip : Str) (names : List Str) :
    cmdAddHost (cmdAddHost hosts ip names) ip names = cmdAddHost hosts ip names := by
  rcases addHostLoop_spec hosts ip names with
    ⟨pre, h, post, heq, hpre, hip, heval⟩ | ⟨hall, heval⟩
  · have h1 : cmdAddHost hosts ip names =
        pre ++ Entry.host ⟨h.IP, uniqueStrings (h.Hostnames ++ names)⟩ :: post :=
      cmdAddHost_eq_of_found _ _ ip names heval
    rw [h1]
    have heval2 := addHostLoop_found pre
      ⟨h.IP, uniqueStrings (h.Hostnames ++ names)⟩ post ip names hpre hip
    have habs : uniqueStrings (uniqueStrings (h.Hostnames ++ names) ++ names) =
        uniqueStrings (h.Hostnames ++ names) :=
      uniq_absorb_round (h.Hostnames ++ names) names
        (fun y hy => List.mem_append_right _ hy)
    rw [cmdAddHost_eq_of_found _ _ ip names heval2]
    simp [habs]
  · have h1 : cmdAddHost hosts ip names =
        hosts ++ [Entry.host ⟨ip, uniqueStrings names⟩] :=
      cmdAddHost_eq_of_not_found _ _ ip names heval
    rw [h1]
    have heval2 := addHostLoop_found hosts ⟨ip, uniqueStrings names⟩ [] ip names hall rfl
    have habs : uniqueStrings (uniqueStrings names ++ names) = uniqueStrings names :=
      uniq_absorb_round names names (fun y hy => hy)
    rw [cmdAddHost_eq_of_found _ _ ip names heval2]
    simp [habs]

/-- Claim C6: every Record present after parse, addHost (with a non-empty
hostname argument), removeIP, or removeHostnames has a non-empty hostname
sequence: rmhost deletes an emptied Record's entry instead of keeping it. -/
theorem claim6_nonempty_invariant (contents : Str) (hosts : List Entry) (ip : Str)
    (names names2 : List Str) :
    HostsNonempty (ReadHosts contents) ∧
    (HostsNonempty hosts → names ≠ [] → HostsNonempty (cmdAddHost hosts ip names)) ∧
    (HostsNonempty hosts → HostsNonempty (cmdRemoveIP hosts ip)) ∧
    (HostsNonempty hosts → HostsNonempty (cmdRemoveHost hosts names2)) := by
  refine ⟨?_, ?_, ?_, ?_⟩
  · exact classifyRows_nonempty (splitOnNl contents) []
      (fun e he => absurd he (List.not_mem_nil e))
  · intro hp hn
    exact cmdAddHost_nonempty hosts ip names hp hn
  · intro hp
    exact removeIPLoop_preserves entryHostNonempty (fun _ => rfl) ip hosts.length hosts hp
  · intro hp
    exact removeHostLoop_nonempty names2 hosts.length hosts hp

/-- Witness for claim C6 at concrete inputs: removing the only hostname of
the only record deletes the record entry, and the other operations keep all
records non-empty. -/
theorem claim6_nonempty_witness :
    HostsNonempty (ReadHosts ("# c\n1.1.1.1 a\n".toList)) ∧
    HostsNonempty (cmdAddHost [Entry.host ⟨"1.1.1.1".toList, ["a".toList]⟩]
      ("1.1.1.1".toList) ["b".toList]) ∧
    HostsNonempty (cmdRemoveIP [Entry.host ⟨"1.1.1.1".toList, ["a".toList]⟩]
      ("1.1.1.1".toList)) ∧
    HostsNonempty (cmdRemoveHost [Entry.host ⟨"1.1.1.1".toList, ["a".toList]⟩]
      ["a".toList]) := by
  have hc := claim6_nonempty_invariant ("# c\n1.1.1.1 a\n".toList)
    [Entry.host ⟨"1.1.1.1".toList, ["a".toList]⟩]
    ("1.1.1.1".toList) ["b".toList] ["a".toList]
  exact ⟨hc.1, hc.2.1 (by decide) (by decide), hc.2.2.1 (by decide), hc.2.2.2 (by decide)⟩

/-- Claim C7: resolve scans Records in forward order, returns the ip of the
first Record whose hostname list contains the name exactly, and returns
not-found (no output) when no Record matches. -/
theorem claim7_resolve (hosts pre post : List Entry) (h : Host) (name : Str) :
    (hosts = pre ++ Entry.host h :: post → name ∈ h.Hostnames →
      (∀ e ∈ pre, entryHasHostname name e = false) →
      cmdResolve hosts name = some h.IP) ∧
    ((∀ e ∈ hosts, entryHasHostname name e = false) → cmdResolve hosts name = none) := by
  constructor
  · intro heq hmem hpre
    subst heq
    exact cmdResolve_found pre h post name hpre hmem
  · exact cmdResolve_not_found hosts name

/-- Witness for claim C7 at a concrete input: with two records both carrying
hostname `h`, resolve returns the ip of the earlier one. -/
theorem claim7_resolve_witness :
    cmdResolve
      [Entry.str ("# c".toList),
       Entry.host ⟨"8.8.8.8".toList, ["x".toList]⟩,
       Entry.host ⟨"1.1.1.1".toList, ["h".toList]⟩,
       Entry.host ⟨"2.2.2.2".toList, ["h".toList]⟩]
      ("h".toList) = some ("1.1.1.1".toList) := by
  have hh := (claim7_resolve
      [Entry.str ("# c".toList),
       Entry.host ⟨"8.8.8.8".toList, ["x".toList]⟩,
       Entry.host ⟨"1.1.1.1".toList, ["h".toList]⟩,
       Entry.host ⟨"2.2.2.2".toList, ["h".toList]⟩]
      [Entry.str ("# c".toList), Entry.host ⟨"8.8.8.8".toList, ["x".toList]⟩]
      [Entry.host ⟨"2.2.2.2".toList, ["h".toList]⟩]
      ⟨"1.1.1.1".toList, ["h".toList]⟩
      ("h".toList)).1 rfl (by decide) (by decide)
  exact hh

/-- Claim C8: parse splits the text into rows on newline and classifies every
row exactly as the spec states: trimmed empty or comment rows and rows with
fewer than two fields become Passthrough of the trimmed row, every other row
becomes a Record of first field and remaining fields. -/
theorem claim8_parse_classification (contents : Str) :
    ReadHosts contents = (splitOnNl contents).map classifyRow := by
  rw [ReadHosts, classifyRows_map, List.nil_append]

/-- Claim C9 counterexample: the claim includes Host Files produced by parse,
but `ReadHosts` performs no deduplication, so the row `0.0.0.0 a a` parses to
a Record whose hostnames are not pairwise distinct. -/
theorem claim9_parse_dup_counterexample :
    ReadHosts ("0.0.0.0 a a".toList) =
      [Entry.host ⟨"0.0.0.0".toList, ["a".toList, "a".toList]⟩] ∧
    ¬ RecordsNodup (ReadHosts ("0.0.0.0 a a".toList)) := by
  exact ⟨rfl, by decide⟩

/-- Claim C9 as amended: `uniqueStrings` deduplicates keeping the first
occurrence in first-seen order (its output is duplicate-free, an ordered
sublist of its input, membership-preserving, and drops exactly the later
copies of the head), and the three mutating operations preserve
pairwise-distinct hostnames within every Record; parse, however, does not
deduplicate. -/
theorem claim9_nodup_amended (l : List Str) (x : Str) (hosts : List Entry)
    (ip : Str) (ns ns2 : List Str) :
    ((uniqueStrings l).Nodup ∧ List.Sublist (uniqueStrings l) l ∧
      (∀ y, y ∈ uniqueStrings l ↔ y ∈ l) ∧
      uniqueStrings (x :: l) = x :: uniqueStrings (l.filter (fun y => decide (y ≠ x)))) ∧
    (RecordsNodup hosts →
      RecordsNodup (cmdAddHost hosts ip ns) ∧
      RecordsNodup (cmdRemoveIP hosts ip) ∧
      RecordsNodup (cmdRemoveHost hosts ns2)) := by
  refine ⟨⟨nodup_uniqueStringsLoop l [], uniqueStringsLoop_sublist l [], fun y => ?_,
    uniqueStrings_cons x l⟩, fun hp => ?_⟩
  · constructor
    · intro hm
      exact ((mem_uniqueStringsLoop l [] y).1 hm).1
    · intro hm
      exact (mem_uniqueStringsLoop l [] y).2 ⟨hm, List.not_mem_nil y⟩
  · exact ⟨cmdAddHost_nodup hosts ip ns hp,
      removeIPLoop_preserves entryHostNodup (fun _ => rfl) ip hosts.length hosts hp,
      removeHostLoop_nodup ns2 hosts.length hosts hp⟩

/-- Witness for the amended claim C9 at concrete inputs. -/
theorem claim9_nodup_witness :
    RecordsNodup (cmdAddHost [Entry.host ⟨"1.1.1.1".toList, ["a".toList]⟩]
      ("1.1.1.1".toList) ["b".toList]) ∧
    RecordsNodup (cmdRemoveIP [Entry.host ⟨"1.1.1.1".toList, ["a".toList]⟩]
      ("1.1.1.1".toList)) ∧
    RecordsNodup (cmdRemoveHost [Entry.host ⟨"1.1.1.1".toList, ["a".toList]⟩]
      ["a".toList]) :=
  (claim9_nodup_amended [] [] [Entry.host ⟨"1.1.1.1".toList, ["a".toList]⟩]
    ("1.1.1.1".toList) ["b".toList] ["a".toList]).2 (by decide)

/-- Claim C10: the single-name removal helper used by rmhost removes exactly
the last occurrence of the target name, keeps every other element in order,
and returns the list unchanged when the name is absent. -/
theorem claim10_removeHostname (hostnames : List Str) (remove : Str) :
    (remove ∉ hostnames → removeHostname hostnames remove = hostnames) ∧
    (∀ pre post, hostnames = pre ++ remove :: post → remove ∉ post →
      removeHostname hostnames remove = pre ++ post) := by
  constructor
  · exact removeHostname_not_mem hostnames remove
  · intro pre post heq hnp
    subst heq
    exact removeHostname_last pre remove post hnp

/-- Witness for claim C10 at a concrete input: the second `a` (the last
occurrence) is the one removed. -/
theorem claim10_removeHostname_witness :
    removeHostname ["a".toList, "b".toList, "a".toList, "c".toList] ("a".toList) =
      ["a".toList, "b".toList, "c".toList] :=
  (claim10_removeHostname ["a".toList, "b".toList, "a".toList, "c".toList]
    ("a".toList)).2 ["a".toList, "b".toList] ["c".toList] rfl (by decide)

end HostsTool
